import Mathlib

/-
Verification of the pynocular ORM layer: a shallow embedding of the
in-memory backend (`pynocular/backends/memory.py`), the ambient backend
context (`pynocular/backends/context.py`) and the aiopg transaction
utilities (`pynocular/aiopg_transaction.py`), with theorems settling the
specification claims about them.

Modelling conventions:
  - Python dict values are modelled by `Val`; `Val.vnone` plays the role of
    Python `None`, which `dict.get` also returns for an absent key.
  - `deepcopy` on the immutable Lean values is the identity, so a backup is
    simply the current value of the store.
  - Fallible Python code (assertions, KeyError, NotImplementedError) is
    modelled with `Option`/`Except`.
  - `datetime.utcnow()` and `uuid4()` are modelled by an explicit `now`
    parameter and a uuid supply function indexed by a counter threaded
    through the state.
-/

namespace Pynocular

/-- Scalar values stored in records. `vnone` models Python `None`. -/
inductive Val where
  | vnone : Val
  | vint : Int → Val
  | vstr : String → Val
  | vtime : Nat → Val
deriving DecidableEq

/-- A database record: a Python dict from column name to value, with
insertion order preserved (as Python dicts preserve it). -/
structure Record where
  entries : List (String × Val)
deriving DecidableEq

/-- Python `record.get(k)`: the value stored at key `k`, or `None` when the
key is absent. -/
def Record.get (r : Record) (k : String) : Val :=
  match r.entries.find? (fun p => p.1 == k) with
  | some p => p.2
  | none => Val.vnone

/-- Python `k in record`: key presence (distinct from having value `None`). -/
def Record.hasKey (r : Record) (k : String) : Bool :=
  r.entries.any (fun p => p.1 == k)

/-- Helper for `Record.set`: replace the value at a present key in place,
else append the binding at the end (Python dict assignment). -/
def setEntries : List (String × Val) → String → Val → List (String × Val)
  | [], k, v => [(k, v)]
  | (k1, v1) :: rest, k, v =>
    if k1 == k then (k, v) :: rest else (k1, v1) :: setEntries rest k v

/-- Python `record[k] = v`. -/
def Record.set (r : Record) (k : String) (v : Val) : Record :=
  ⟨setEntries r.entries k v⟩

/-- Python `record.setdefault(k, v)`: insert only when the key is absent. -/
def Record.setdefault (r : Record) (k : String) (v : Val) : Record :=
  if r.hasKey k then r else ⟨r.entries ++ [(k, v)]⟩

/-- Python `record.update(values)`: assign every binding of `values`, in
insertion order, onto `r`. -/
def Record.updateWith (r : Record) (values : Record) : Record :=
  values.entries.foldl (fun acc kv => acc.set kv.1 kv.2) r

/-
`MemoryConnection` from `pynocular/backends/memory.py`.  The store type is
a parameter `σ`; `records : Option σ` because `restore_records` assigns
`deepcopy(self._tmp_records)`, which is Python `None` when no backup was
taken.  The transaction stack holds transaction identities (`stack[-1] is
self` is an identity test; we give each `MemoryTransaction` a numeric id).
The Lean list head is the Python list's last element (top of stack).
-/
structure MemoryConnection (σ : Type) where
  records : Option σ
  tmp_records : Option σ
  transaction_stack : List Nat
deriving DecidableEq

/-- `MemoryConnection.backup_records`: `self._tmp_records = deepcopy(self.records)`. -/
def MemoryConnection.backup_records (c : MemoryConnection σ) : MemoryConnection σ :=
  { c with tmp_records := c.records }

/-- `MemoryConnection.clear_backup`: `self._tmp_records = None`. -/
def MemoryConnection.clear_backup (c : MemoryConnection σ) : MemoryConnection σ :=
  { c with tmp_records := none }

/-- `MemoryConnection.restore_records`: `self.records = deepcopy(self._tmp_records)`. -/
def MemoryConnection.restore_records (c : MemoryConnection σ) : MemoryConnection σ :=
  { c with records := c.tmp_records }

/-- `MemoryTransaction.start`: under the transaction lock, back the records
up when the stack is empty (root transaction), then push this transaction. -/
def MemoryTransaction.start (t : Nat) (c : MemoryConnection σ) : MemoryConnection σ :=
  let c1 := if c.transaction_stack.isEmpty then c.backup_records else c
  { c1 with transaction_stack := t :: c1.transaction_stack }

/-- `MemoryTransaction.commit`: assert this transaction is on top of the
stack (identity test, `IndexError` on an empty stack — both modelled as
`none`), pop, and clear the backup when the stack becomes empty. -/
def MemoryTransaction.commit (t : Nat) (c : MemoryConnection σ) :
    Option (MemoryConnection σ) :=
  match c.transaction_stack with
  | [] => none
  | top :: rest =>
    if top == t then
      let c1 := { c with transaction_stack := rest }
      some (if rest.isEmpty then c1.clear_backup else c1)
    else none

/-- `MemoryTransaction.rollback`: assert this transaction is on top of the
stack, pop, and restore the backed-up records when the stack becomes empty. -/
def MemoryTransaction.rollback (t : Nat) (c : MemoryConnection σ) :
    Option (MemoryConnection σ) :=
  match c.transaction_stack with
  | [] => none
  | top :: rest =>
    if top == t then
      let c1 := { c with transaction_stack := rest }
      some (if rest.isEmpty then c1.restore_records else c1)
    else none

/-- An observable event against a `MemoryConnection`: a transaction
operation, or an arbitrary mutation of the live store (standing for any
create/update/delete issued between transaction operations). -/
inductive TxStep (σ : Type) where
  | start (t : Nat)
  | commit (t : Nat)
  | rollback (t : Nat)
  | mutate (f : σ → σ)

/-- Run one step against the connection; `none` models a raised exception. -/
def runStep : TxStep σ → MemoryConnection σ → Option (MemoryConnection σ)
  | .start t, c => some (MemoryTransaction.start t c)
  | .commit t, c => MemoryTransaction.commit t c
  | .rollback t, c => MemoryTransaction.rollback t c
  | .mutate f, c => some { c with records := c.records.map f }

/-- Run a sequence of steps. -/
def runSteps : List (TxStep σ) → MemoryConnection σ → Option (MemoryConnection σ)
  | [], c => some c
  | s :: rest, c =>
    match runStep s c with
    | none => none
    | some c1 => runSteps rest c1

/-- Checks that the transaction stack stays nonempty after every step of the
sequence: the root transaction is never closed mid-sequence. -/
def rootStaysOpen : List (TxStep σ) → MemoryConnection σ → Bool
  | [], _ => true
  | s :: rest, c =>
    match runStep s c with
    | none => true
    | some c1 => !c1.transaction_stack.isEmpty && rootStaysOpen rest c1

theorem start_eq (t : Nat) (r tmp : Option σ) (stack : List Nat) :
    MemoryTransaction.start t (⟨r, tmp, stack⟩ : MemoryConnection σ) =
      if stack.isEmpty then ⟨r, r, t :: stack⟩ else ⟨r, tmp, t :: stack⟩ := by
  cases h : stack.isEmpty <;>
    simp [MemoryTransaction.start, MemoryConnection.backup_records, h]

theorem commit_nil (t : Nat) (r tmp : Option σ) :
    MemoryTransaction.commit t ⟨r, tmp, []⟩ = none := rfl

theorem commit_cons (t top : Nat) (rest : List Nat) (r tmp : Option σ) :
    MemoryTransaction.commit t ⟨r, tmp, top :: rest⟩ =
      if top == t then
        some (if rest.isEmpty then
          (⟨r, tmp, rest⟩ : MemoryConnection σ).clear_backup
        else ⟨r, tmp, rest⟩)
      else none := rfl

theorem rollback_nil (t : Nat) (r tmp : Option σ) :
    MemoryTransaction.rollback t ⟨r, tmp, []⟩ = none := rfl

theorem rollback_cons (t top : Nat) (rest : List Nat) (r tmp : Option σ) :
    MemoryTransaction.rollback t ⟨r, tmp, top :: rest⟩ =
      if top == t then
        some (if rest.isEmpty then
          (⟨r, tmp, rest⟩ : MemoryConnection σ).restore_records
        else ⟨r, tmp, rest⟩)
      else none := rfl

theorem tmp_preserved {σ : Type} (s0 : σ) :
    ∀ (steps : List (TxStep σ)) (c : MemoryConnection σ),
      c.tmp_records = some s0 → c.transaction_stack ≠ [] →
      rootStaysOpen steps c = true →
      ∀ c2, runSteps steps c = some c2 →
        c2.tmp_records = some s0 ∧ c2.transaction_stack ≠ [] := by
  intro steps
  induction steps with
  | nil =>
    intro c htmp hne _ c2 hrun
    simp [runSteps] at hrun
    subst hrun
    exact ⟨htmp, hne⟩
  | cons s rest ih =>
    rintro ⟨cr, ctmp, cstack⟩ htmp hne hopen c2 hrun
    simp only [MemoryConnection.tmp_records] at htmp
    simp only [MemoryConnection.transaction_stack] at hne
    simp only [runSteps] at hrun
    cases hstep : runStep s ⟨cr, ctmp, cstack⟩ with
    | none => rw [hstep] at hrun; exact absurd hrun (by simp)
    | some c1 =>
      rw [hstep] at hrun
      simp only [rootStaysOpen, hstep, Bool.and_eq_true] at hopen
      have hne1 : c1.transaction_stack ≠ [] := by
        have := hopen.1
        simpa [List.isEmpty_iff] using this
      have htmp1 : c1.tmp_records = some s0 := by
        cases s with
        | start t =>
          simp only [runStep, start_eq] at hstep
          rw [if_neg (by simpa [List.isEmpty_iff] using hne)] at hstep
          injection hstep with hstep
          subst hstep
          simpa using htmp
        | commit t =>
          cases cstack with
          | nil => exact absurd rfl hne
          | cons top rest2 =>
            simp only [runStep, commit_cons] at hstep
            by_cases htop : (top == t) = true
            · rw [if_pos htop] at hstep
              by_cases hr : rest2.isEmpty
              · -- popping would empty the stack, contradicting `rootStaysOpen`
                rw [if_pos hr] at hstep
                injection hstep with hstep
                subst hstep
                refine absurd ?_ hne1
                simp [MemoryConnection.clear_backup]
                simpa [List.isEmpty_iff] using hr
              · rw [if_neg hr] at hstep
                injection hstep with hstep
                subst hstep
                simpa using htmp
            · rw [if_neg htop] at hstep
              exact absurd hstep (by simp)
        | rollback t =>
          cases cstack with
          | nil => exact absurd rfl hne
          | cons top rest2 =>
            simp only [runStep, rollback_cons] at hstep
            by_cases htop : (top == t) = true
            · rw [if_pos htop] at hstep
              by_cases hr : rest2.isEmpty
              · rw [if_pos hr] at hstep
                injection hstep with hstep
                subst hstep
                refine absurd ?_ hne1
                simp [MemoryConnection.restore_records]
                simpa [List.isEmpty_iff] using hr
              · rw [if_neg hr] at hstep
                injection hstep with hstep
                subst hstep
                simpa using htmp
            · rw [if_neg htop] at hstep
              exact absurd hstep (by simp)
        | mutate f =>
          simp only [runStep] at hstep
          injection hstep with hstep
          subst hstep
          simpa using htmp
      exact ih c1 htmp1 hne1 hopen.2 c2 hrun

/-- Claim C1: for the in-memory backend, starting the root transaction
captures the store as a restore point; as long as the root stays open, the
restore point is untouched by nested starts, commits, rollbacks and store
mutations; and a rollback that empties the stack replaces the live store
with exactly the state captured when the root transaction started,
discarding every mutation made since, including ones made under nested
transactions that had individually committed. -/
theorem memory_root_rollback_restores {σ : Type} (s0 : σ)
    (c0 : MemoryConnection σ) (t u : Nat) (steps : List (TxStep σ))
    (c2 c3 : MemoryConnection σ)
    (hstack : c0.transaction_stack = [])
    (hrec : c0.records = some s0)
    (hopen : rootStaysOpen steps (MemoryTransaction.start t c0) = true)
    (hrun : runSteps steps (MemoryTransaction.start t c0) = some c2)
    (hroll : MemoryTransaction.rollback u c2 = some c3)
    (hempty : c3.transaction_stack = []) :
    c3.records = some s0 ∧ c2.tmp_records = some s0 := by
  have hstart_tmp : (MemoryTransaction.start t c0).tmp_records = some s0 := by
    simp [MemoryTransaction.start, hstack, MemoryConnection.backup_records, hrec]
  have hstart_ne : (MemoryTransaction.start t c0).transaction_stack ≠ [] := by
    simp [MemoryTransaction.start]
  obtain ⟨h2tmp, h2ne⟩ :=
    tmp_preserved s0 steps (MemoryTransaction.start t c0) hstart_tmp hstart_ne hopen c2 hrun
  refine ⟨?_, h2tmp⟩
  obtain ⟨c2r, c2t, c2s⟩ := c2
  simp only [MemoryConnection.tmp_records] at h2tmp
  simp only [MemoryConnection.transaction_stack] at h2ne
  cases c2s with
  | nil => exact absurd rfl h2ne
  | cons top rest =>
    rw [rollback_cons] at hroll
    by_cases htop : (top == u) = true
    · rw [if_pos htop] at hroll
      by_cases hr : rest.isEmpty
      · rw [if_pos hr] at hroll
        injection hroll with hroll
        subst hroll
        simpa [MemoryConnection.restore_records] using h2tmp
      · rw [if_neg hr] at hroll
        injection hroll with hroll
        subst hroll
        simp only [MemoryConnection.transaction_stack] at hempty
        exact absurd (by simpa [List.isEmpty_iff] using hempty) hr
    · rw [if_neg htop] at hroll
      exact absurd hroll (by simp)

/-- Witness for C1: a concrete run over a `Nat` store — mutate, open a
nested transaction, mutate, commit it, open another, mutate, roll it back,
then roll back the root: the store returns to its initial value 5. -/
theorem memory_root_rollback_restores_witness :
    (⟨some 5, some 5, []⟩ : MemoryConnection Nat).records = some 5 ∧
    (⟨some 19, some 5, [0]⟩ : MemoryConnection Nat).tmp_records = some 5 :=
  memory_root_rollback_restores 5 ⟨some 5, none, []⟩ 0 0
    [.mutate (· + 1), .start 1, .mutate (· * 2), .commit 1,
     .start 2, .mutate (· + 7), .rollback 2]
    ⟨some 19, some 5, [0]⟩ ⟨some 5, some 5, []⟩
    rfl rfl (by decide) (by decide) (by decide) rfl

/-- Claim C10: commit and rollback on an in-memory transaction handle
succeed exactly when that handle is the most recently started, not yet
closed transaction on its connection's stack — on any other handle (or an
empty stack) they fail with an assertion error, so transactions must be
closed in strict LIFO order. -/
theorem memory_commit_rollback_lifo {σ : Type} (c : MemoryConnection σ) (t : Nat) :
    (MemoryTransaction.commit t c).isSome =
        (c.transaction_stack.head? == some t) ∧
    (MemoryTransaction.rollback t c).isSome =
        (c.transaction_stack.head? == some t) := by
  constructor <;>
  · simp only [MemoryTransaction.commit, MemoryTransaction.rollback]
    cases c.transaction_stack with
    | nil => simp
    | cons top rest =>
      by_cases htop : (top == t) = true
      · simp [htop]
      · simp [htop]

/-
The `MemoryDatabaseModelBackend` query operations.  `where_expressions` is
modelled as a list of already-interpreted predicates (the result of
partially applying `evaluate_column_element` to each `BinaryExpression`);
an empty list plays the role of Python `None`/`[]`, both of which skip the
filter under the source's truthiness test `if where_expressions:`.
-/

/-- Python `a < b` on record values: defined on two ints, two strings or two
timestamps; comparing `None` or mixed types raises `TypeError` in Python and
is never exercised by the theorems below (modelled as `false`). -/
def Val.ltVal : Val → Val → Bool
  | .vint a, .vint b => a < b
  | .vstr a, .vstr b => a < b
  | .vtime a, .vtime b => a < b
  | _, _ => false

/-- Insert `a` into `l` after every element not strictly greater than it, so
that equal keys keep their original relative order. -/
def stableInsert (lt : α → α → Bool) (a : α) : List α → List α
  | [] => [a]
  | b :: bs => if lt a b then a :: b :: bs else b :: stableInsert lt a bs

/-- The stable sort of `l` with respect to the strict order `lt`: the
semantics of Python's `sorted`, which is guaranteed stable. -/
def stableSort (lt : α → α → Bool) (l : List α) : List α :=
  l.foldl (fun acc a => stableInsert lt a acc) []

/-- One `order_by` entry: a column plus ascending/descending flag (a
`UnaryExpression` with the `desc_op` modifier, or a bare column). -/
structure OrderBy where
  column : String
  descending : Bool
deriving DecidableEq

/-- Python `sorted(records, key=lambda r: r.get(column.name), reverse=reverse)`. -/
def pySorted (column : String) (reverse : Bool) (records : List Record) : List Record :=
  stableSort
    (fun a b =>
      if reverse then Val.ltVal (b.get column) (a.get column)
      else Val.ltVal (a.get column) (b.get column))
    records

/-- `MemoryDatabaseModelBackend.select` on one table's records.  The source
filters when `where_expressions` is truthy, then sorts once per `order_by`
entry in the order given, and finally executes
`if limit is None: records[:limit]` — an expression statement whose value is
discarded — so the `limit` argument never affects the result. -/
def select (table : List Record) (where_expressions : List (Record → Bool))
    (order_by : List OrderBy) (limit : Option Nat) : List Record :=
  let records := table
  let records :=
    if where_expressions.isEmpty then records
    else records.filter (fun r => where_expressions.all (fun w => w r))
  let records := order_by.foldl (fun recs o => pySorted o.column o.descending recs) records
  let _ := limit
  records

/-- Two sample records used by the select counterexamples. -/
def recId1 : Record := ⟨[("id", .vint 1)]⟩

def recId2 : Record := ⟨[("id", .vint 2)]⟩

/-- Claim C4, failing input: the source's limit line `records[:limit]` is an
unassigned expression guarded by the inverted test `if limit is None:`, so a
select with `limit = 1` over two matching records returns both of them —
the limit is never applied. -/
theorem select_ignores_limit_bug :
    (select [recId1, recId2] [] [] (some 1)).length = 2 := by decide

/-- Records demonstrating the order_by significance bug: sorted ascending by
column a they are `[recAB1, recAB2]`, ascending by column b `[recAB2, recAB1]`. -/
def recAB1 : Record := ⟨[("a", .vint 1), ("b", .vint 2)]⟩

def recAB2 : Record := ⟨[("a", .vint 2), ("b", .vint 1)]⟩

/-- Claim C6, failing input: `select` re-sorts the record list once per
`order_by` entry in forward order with a stable sort, so the LAST entry
becomes the most significant sort key.  With `order_by = [a asc, b asc]`
the result is ordered by b, while the claim (and SQL `ORDER BY a, b`
semantics, which this backend is documented to translate) requires it to be
ordered by a with b only breaking ties. -/
theorem select_order_by_last_key_dominates_bug :
    select [recAB1, recAB2] [] [⟨"a", false⟩, ⟨"b", false⟩] none = [recAB2, recAB1] := by
  decide

/-- Primary-key column type: SQLAlchemy `Integer` columns draw from the
serial counter, every other type receives a `uuid4()` string. -/
inductive PKType where
  | integer
  | otherPK
deriving DecidableEq

/-- A primary-key column of the table descriptor. -/
structure PKey where
  name : String
  ty : PKType
deriving DecidableEq

/-- The declared type of a server-managed field: `datetime`, the `UUID_STR`
string subclass, or anything else (carried by name). -/
inductive FType where
  | datetime
  | uuidStr
  | otherTy (name : String)
deriving DecidableEq

/-- The per-field metadata consulted for server-managed fields:
`field_info.extra` flags and the declared `type_`. -/
structure FieldInfo where
  fetch_on_create : Bool
  fetch_on_update : Bool
  type_ : FType
deriving DecidableEq

/-- The `DatabaseModelConfig` descriptor: table name, primary-key columns in
declaration order, server-managed field names, and field metadata. -/
structure Config where
  table : String
  primary_keys : List PKey
  db_managed_fields : List String
  fields : List (String × FieldInfo)
deriving DecidableEq

/-- Python `config.fields[name]` as a partial lookup. -/
def Config.fieldInfo (cfg : Config) (name : String) : Option FieldInfo :=
  match cfg.fields.find? (fun p => p.1 == name) with
  | some p => some p.2
  | none => none

/-- The backend's generators: `itertools.count(start=1)` for integer primary
keys, plus a counter indexing the ambient supply of `uuid4()` strings. -/
structure Gen where
  pkCtr : Nat
  uuidCtr : Nat
deriving DecidableEq

/-- `MemoryDatabaseModelBackend._set_primary_key_values`: for every primary
key, draw the candidate value first (consuming the generator even when the
key is already present) and `setdefault` it onto the record. -/
def setPrimaryKeyValues (uuidGen : Nat → String) (pks : List PKey)
    (g : Gen) (record : Record) : Gen × Record :=
  pks.foldl
    (fun acc pk =>
      match pk.ty with
      | .integer =>
        ({ acc.1 with pkCtr := acc.1.pkCtr + 1 },
         acc.2.setdefault pk.name (.vint acc.1.pkCtr))
      | .otherPK =>
        ({ acc.1 with uuidCtr := acc.1.uuidCtr + 1 },
         acc.2.setdefault pk.name (.vstr (uuidGen acc.1.uuidCtr))))
    (g, record)

/-- Recursion of `_update_db_managed_fields` over `config.db_managed_fields`.
A field whose flag applies is populated according to its declared type:
`datetime` gets the evaluation-time clock `now`, `UUID_STR` gets a fresh
uuid, and any other type raises `NotImplementedError`.  A name absent from
`config.fields` would raise `KeyError`. -/
def updateDbManagedFieldsGo (uuidGen : Nat → String) (now : Nat) (cfg : Config)
    (foc fou : Bool) : List String → Gen → Record → Except String (Gen × Record)
  | [], g, r => .ok (g, r)
  | name :: rest, g, r =>
    match cfg.fieldInfo name with
    | none => .error "KeyError"
    | some fi =>
      if (foc && fi.fetch_on_create && (r.get name == .vnone))
          || (fou && fi.fetch_on_update) then
        match fi.type_ with
        | .datetime =>
          updateDbManagedFieldsGo uuidGen now cfg foc fou rest g
            (r.set name (.vtime now))
        | .uuidStr =>
          updateDbManagedFieldsGo uuidGen now cfg foc fou rest
            { g with uuidCtr := g.uuidCtr + 1 }
            (r.set name (.vstr (uuidGen g.uuidCtr)))
        | .otherTy s => .error ("NotImplementedError: " ++ s)
      else updateDbManagedFieldsGo uuidGen now cfg foc fou rest g r

/-- `MemoryDatabaseModelBackend._update_db_managed_fields`. -/
def updateDbManagedFields (uuidGen : Nat → String) (now : Nat) (cfg : Config)
    (g : Gen) (record : Record) (foc fou : Bool) : Except String (Gen × Record) :=
  updateDbManagedFieldsGo uuidGen now cfg foc fou cfg.db_managed_fields g record

/-- Python `self.records[name]` on the `defaultdict(list)` store: absent
tables read as an empty record list. -/
def storeGet : List (String × List Record) → String → List Record
  | [], _ => []
  | (t, rs) :: rest, name => if t == name then rs else storeGet rest name

/-- Replace (or materialize) one table's record list in the store. -/
def storeSet : List (String × List Record) → String → List Record →
    List (String × List Record)
  | [], name, rs => [(name, rs)]
  | (t, rs1) :: rest, name, rs =>
    if t == name then (t, rs) :: rest else (t, rs1) :: storeSet rest name rs

/-- The mutable state of a `MemoryDatabaseModelBackend`: the table store of
its connection plus its generators. -/
structure MemBackend where
  records : List (String × List Record)
  gen : Gen
deriving DecidableEq

/-- The per-record loop of `create_records`: set primary keys, then update
db-managed fields with both fetch flags. -/
def createRecordsGo (uuidGen : Nat → String) (now : Nat) (cfg : Config) :
    List Record → Gen → Except String (Gen × List Record)
  | [], g => .ok (g, [])
  | r :: rest, g =>
    let gr := setPrimaryKeyValues uuidGen cfg.primary_keys g r
    match updateDbManagedFields uuidGen now cfg gr.1 gr.2 true true with
    | .error e => .error e
    | .ok (g2, r2) =>
      match createRecordsGo uuidGen now cfg rest g2 with
      | .error e => .error e
      | .ok (g3, rs) => .ok (g3, r2 :: rs)

/-- `MemoryDatabaseModelBackend.create_records`: process every record, extend
the table with them, and return `self.records[config.table.name]` — the
ENTIRE table contents, not the list of newly created records. -/
def create_records (uuidGen : Nat → String) (now : Nat) (st : MemBackend)
    (cfg : Config) (records : List Record) : Except String (MemBackend × List Record) :=
  match createRecordsGo uuidGen now cfg records st.gen with
  | .error e => .error e
  | .ok (g2, newRecs) =>
    let table := storeGet st.records cfg.table ++ newRecs
    let store2 := storeSet st.records cfg.table table
    .ok ({ records := store2, gen := g2 }, storeGet store2 cfg.table)

/-- A descriptor with a single serial primary key and no managed fields. -/
def cfgThings : Config := ⟨"things", [⟨"id", .integer⟩], [], []⟩

/-- A trivial uuid supply for concrete runs. -/
def uuidSupply (n : Nat) : String := "uuid-" ++ toString n

/-- A backend whose `things` table already holds the row `{id: 1}`. -/
def stOneThing : MemBackend := ⟨[("things", [recId1])], ⟨2, 0⟩⟩

/-- Claim C5, failing input: `create_records` returns
`self.records[config.table.name]`, the whole table, so creating an empty
list of records against a table that already holds `{id: 1}` returns that
pre-existing row instead of the empty list the claim requires (and a
non-empty create would likewise return pre-existing rows alongside the new
ones). -/
theorem create_records_returns_whole_table_bug :
    create_records uuidSupply 0 stOneThing cfgThings [] =
      .ok (stOneThing, [recId1]) := rfl

/-- Claim C9 (amended): when a db-managed field (declared as the single
managed field of its descriptor) has a flag that applies, the in-memory
backend fills it according to its declared type — the evaluation-time clock
for a `datetime` field, a freshly drawn uuid string for a `UUID_STR` field —
and raises `NotImplementedError` for every other declared type. -/
theorem update_db_managed_single_field (uuidGen : Nat → String) (now : Nat)
    (tbl : String) (pks : List PKey) (name : String) (fi : FieldInfo)
    (g : Gen) (record : Record) (foc fou : Bool)
    (hcond : ((foc && fi.fetch_on_create && (record.get name == .vnone))
        || (fou && fi.fetch_on_update)) = true) :
    (fi.type_ = .datetime →
      updateDbManagedFields uuidGen now ⟨tbl, pks, [name], [(name, fi)]⟩ g record foc fou =
        .ok (g, record.set name (.vtime now))) ∧
    (fi.type_ = .uuidStr →
      updateDbManagedFields uuidGen now ⟨tbl, pks, [name], [(name, fi)]⟩ g record foc fou =
        .ok ({ g with uuidCtr := g.uuidCtr + 1 },
             record.set name (.vstr (uuidGen g.uuidCtr)))) ∧
    (∀ s, fi.type_ = .otherTy s →
      updateDbManagedFields uuidGen now ⟨tbl, pks, [name], [(name, fi)]⟩ g record foc fou =
        .error ("NotImplementedError: " ++ s)) := by
  have hfind : Config.fieldInfo ⟨tbl, pks, [name], [(name, fi)]⟩ name = some fi := by
    simp [Config.fieldInfo]
  refine ⟨?_, ?_, ?_⟩
  · intro hty
    simp [updateDbManagedFields, updateDbManagedFieldsGo, hfind, hcond, hty]
  · intro hty
    simp [updateDbManagedFields, updateDbManagedFieldsGo, hfind, hcond, hty]
  · intro s hty
    simp [updateDbManagedFields, updateDbManagedFieldsGo, hfind, hcond, hty]

/-- Witness for the amended C9: a concrete fetch-on-create `datetime` field
is filled with the clock value. -/
theorem update_db_managed_single_field_witness :
    updateDbManagedFields uuidSupply 7
        ⟨"things", [], ["created_at"], [("created_at", ⟨true, false, .datetime⟩)]⟩
        ⟨1, 0⟩ ⟨[]⟩ true false =
      .ok (⟨1, 0⟩, Record.set ⟨[]⟩ "created_at" (.vtime 7)) :=
  (update_db_managed_single_field uuidSupply 7 "things" [] "created_at"
    ⟨true, false, .datetime⟩ ⟨1, 0⟩ ⟨[]⟩ true false (by decide)).1 rfl

/-- Claim C9, counterexample: a fetch-on-create field declared as `UUID_STR`
(not a timestamp type) is populated with a fresh uuid string — the call
succeeds instead of raising the unsupported-configuration error the claim
requires for every non-timestamp type. -/
theorem update_db_managed_uuid_no_error :
    updateDbManagedFields uuidSupply 0
        ⟨"things", [], ["guid"], [("guid", ⟨true, false, .uuidStr⟩)]⟩
        ⟨1, 0⟩ ⟨[]⟩ true false =
      .ok (⟨1, 1⟩, ⟨[("guid", .vstr "uuid-0")]⟩) := rfl

/-- The where expressions `upsert` builds: one `primary_key ==
record.get(primary_key.name)` comparison per primary key, with the
right-hand value captured eagerly.  Under `evaluate_column_element` each
compares the stored value against the captured one; the `is` comparison
SQLAlchemy substitutes for a `None` literal agrees with value equality on
this value model. -/
def pkWheres (pks : List PKey) (record : Record) : List (Record → Bool) :=
  pks.map (fun pk => fun r => r.get pk.name == record.get pk.name)

/-- The record loop of `update_records`: each record of the table matched by
the where expressions is mutated in place with `record.update(values)`
followed by the fetch-on-update managed-field refresh; the others are left
alone.  Returns the new table together with the list of matched (now
updated) records that `update_records` returns. -/
def updateMatchedGo (uuidGen : Nat → String) (now : Nat) (cfg : Config)
    (wheres : List (Record → Bool)) (values : Record) :
    List Record → Gen → Except String (Gen × List Record × List Record)
  | [], g => .ok (g, [], [])
  | r :: rest, g =>
    if wheres.all (fun w => w r) then
      match updateDbManagedFields uuidGen now cfg g (r.updateWith values) false true with
      | .error e => .error e
      | .ok (g2, r2) =>
        match updateMatchedGo uuidGen now cfg wheres values rest g2 with
        | .error e => .error e
        | .ok (g3, tbl, upd) => .ok (g3, r2 :: tbl, r2 :: upd)
    else
      match updateMatchedGo uuidGen now cfg wheres values rest g with
      | .error e => .error e
      | .ok (g3, tbl, upd) => .ok (g3, r :: tbl, upd)

/-- `MemoryDatabaseModelBackend.update_records`: select the matching records
(the truthiness test on an empty where list selects everything, like the
`select` it delegates to), update each in place, and return them. -/
def update_records (uuidGen : Nat → String) (now : Nat) (st : MemBackend)
    (cfg : Config) (wheres : List (Record → Bool)) (values : Record) :
    Except String (MemBackend × List Record) :=
  match updateMatchedGo uuidGen now cfg wheres values
      (storeGet st.records cfg.table) st.gen with
  | .error e => .error e
  | .ok (g2, tbl, upd) =>
    .ok ({ records := storeSet st.records cfg.table tbl, gen := g2 }, upd)

/-- The outcome of an `upsert` call, instrumented with how many existing
rows the update path rewrote and how many new rows the insert path
appended. -/
structure UpsertOutcome where
  backend : MemBackend
  ret : Record
  updatedCount : Nat
  insertedCount : Nat
deriving DecidableEq

/-- The branch condition of `upsert`: every primary key on the record `is
not None` AND the limit-1 select over the primary-key where expressions
found an existing record. -/
def upsertTakesUpdatePath (st : MemBackend) (cfg : Config) (record : Record) : Bool :=
  cfg.primary_keys.all (fun pk => !(record.get pk.name == .vnone)) &&
  !(select (storeGet st.records cfg.table)
      (pkWheres cfg.primary_keys record) [] (some 1)).isEmpty

/-- `MemoryDatabaseModelBackend.upsert`: build the primary-key where
expressions, look for an existing record, and either update every matching
row (returning the first updated row — `records[0]` raises `IndexError`
when none) or assign primary keys and managed fields and append one new
row. -/
def upsert (uuidGen : Nat → String) (now : Nat) (st : MemBackend)
    (cfg : Config) (record : Record) : Except String UpsertOutcome :=
  let wheres := pkWheres cfg.primary_keys record
  if upsertTakesUpdatePath st cfg record then
    match updateDbManagedFields uuidGen now cfg st.gen record false true with
    | .error e => .error e
    | .ok (g1, record1) =>
      match update_records uuidGen now { st with gen := g1 } cfg wheres record1 with
      | .error e => .error e
      | .ok (st2, upd) =>
        match upd with
        | [] => .error "IndexError"
        | r0 :: _ => .ok ⟨st2, r0, upd.length, 0⟩
  else
    let gr := setPrimaryKeyValues uuidGen cfg.primary_keys st.gen record
    match updateDbManagedFields uuidGen now cfg gr.1 gr.2 true true with
    | .error e => .error e
    | .ok (g2, record2) =>
      .ok ⟨{ records := storeSet st.records cfg.table
               (storeGet st.records cfg.table ++ [record2]),
             gen := g2 },
           record2, 0, 1⟩

theorem updateMatchedGo_counts (uuidGen : Nat → String) (now : Nat)
    (cfg : Config) (wheres : List (Record → Bool)) (values : Record) :
    ∀ (tbl : List Record) (g g3 : Gen) (tbl2 upd : List Record),
      updateMatchedGo uuidGen now cfg wheres values tbl g = .ok (g3, tbl2, upd) →
      upd.length = (tbl.filter (fun r => wheres.all (fun w => w r))).length := by
  intro tbl
  induction tbl with
  | nil =>
    intro g g3 tbl2 upd h
    simp only [updateMatchedGo] at h
    injection h with h
    injection h with h1 h2
    injection h2 with h2 h3
    subst h3
    simp
  | cons r rest ih =>
    intro g g3 tbl2 upd h
    simp only [updateMatchedGo] at h
    by_cases hm : wheres.all (fun w => w r) = true
    · rw [if_pos hm] at h
      split at h
      · exact absurd h (by simp)
      · rename_i g2 r2 hmf
        split at h
        · exact absurd h (by simp)
        · rename_i g3b tblb updb hrec
          injection h with h
          injection h with h1 h2
          injection h2 with h2 h3
          subst h3
          simp only [List.filter_cons, hm, List.length_cons]
          exact congrArg Nat.succ (ih g2 g3b tblb updb hrec)
    · rw [if_neg hm] at h
      split at h
      · exact absurd h (by simp)
      · rename_i g3b tblb updb hrec
        injection h with h
        injection h with h1 h2
        injection h2 with h2 h3
        subst h3
        have hm2 : (wheres.all (fun w => w r)) = false := by
          simpa using hm
        simp only [List.filter_cons, hm2]
        exact ih g g3b tblb updb hrec

theorem select_no_order_isEmpty (tbl : List Record)
    (wheres : List (Record → Bool)) (lim : Option Nat) :
    (select tbl wheres [] lim).isEmpty =
      (tbl.filter (fun r => wheres.all (fun w => w r))).isEmpty := by
  cases wheres with
  | nil => simp [select]
  | cons w ws => simp [select]

/-- Claim C7: an in-memory `upsert` call that returns takes exactly one of
its two paths: when every primary key on the record is set and a matching
row exists (unique, by `huniq`, as primary keys are), it rewrites exactly
one existing row and appends none; otherwise it appends exactly one new row
and rewrites none — never both, never neither. -/
theorem upsert_exclusive (uuidGen : Nat → String) (now : Nat) (st : MemBackend)
    (cfg : Config) (record : Record) (res : UpsertOutcome)
    (hok : upsert uuidGen now st cfg record = .ok res)
    (huniq : ((storeGet st.records cfg.table).filter
        (fun r => (pkWheres cfg.primary_keys record).all (fun w => w r))).length ≤ 1) :
    (upsertTakesUpdatePath st cfg record = true →
      res.updatedCount = 1 ∧ res.insertedCount = 0) ∧
    (upsertTakesUpdatePath st cfg record = false →
      res.updatedCount = 0 ∧ res.insertedCount = 1) := by
  cases h : upsertTakesUpdatePath st cfg record with
  | false =>
    refine ⟨fun hcon => absurd hcon (by decide), fun _ => ?_⟩
    simp only [upsert, h, Bool.false_eq_true, if_false] at hok
    split at hok
    · exact absurd hok (by simp)
    · rename_i g2 record2 hmf
      injection hok with hok
      subst hok
      exact ⟨rfl, rfl⟩
  | true =>
    refine ⟨fun _ => ?_, fun hcon => absurd hcon (by decide)⟩
    simp only [upsert, h, if_true] at hok
    split at hok
    · exact absurd hok (by simp)
    · rename_i g1 record1 hmf
      split at hok
      · exact absurd hok (by simp)
      · rename_i st2 upd hur
        split at hok
        · exact absurd hok (by simp)
        · rename_i r0 updRest
          injection hok with hok
          subst hok
          refine ⟨?_, rfl⟩
          simp only [update_records] at hur
          split at hur
          · exact absurd hur (by simp)
          · rename_i g3 tblb updb hmg
            injection hur with hur
            injection hur with hur1 hur2
            subst hur2
            have hlen := updateMatchedGo_counts uuidGen now cfg
              (pkWheres cfg.primary_keys record) record1
              (storeGet st.records cfg.table) g1 g3 tblb (r0 :: updRest) hmg
            have hpos : 0 < ((storeGet st.records cfg.table).filter
                (fun r => (pkWheres cfg.primary_keys record).all (fun w => w r))).length := by
              rw [← hlen]
              simp
            have h1 : ((storeGet st.records cfg.table).filter
                (fun r => (pkWheres cfg.primary_keys record).all (fun w => w r))).length = 1 :=
              Nat.le_antisymm huniq hpos
            simpa [h1] using hlen

/-- Witness for C7: with the single primary key set and a matching row
present, a concrete upsert takes the update path with exactly one rewrite
and no insert; the hypotheses (successful call, unique primary-key match)
hold by computation. -/
theorem upsert_exclusive_witness :
    UpsertOutcome.updatedCount ⟨stOneThing, recId1, 1, 0⟩ = 1 ∧
    UpsertOutcome.insertedCount ⟨stOneThing, recId1, 1, 0⟩ = 0 :=
  (upsert_exclusive uuidSupply 0 stOneThing cfgThings recId1
    ⟨stOneThing, recId1, 1, 0⟩ rfl (by decide)).1 (by decide)

/-
The active-backend context (`pynocular/backends/context.py`): a
`contextvars.ContextVar` created with `default=None`; `set_backend` pushes a
value and resets it on scope exit; `get_backend` simply returns
`_backend.get()`.
-/

/-- A `contextvars.ContextVar`: the creation-time default plus the stack of
values set (the head is current; reset pops). -/
structure ContextVar (β : Type) where
  default : β
  valueStack : List β
deriving DecidableEq

/-- `ContextVar.get()` with no argument: the innermost set value, else the
creation-time default. -/
def ContextVar.get (v : ContextVar β) : β :=
  v.valueStack.headD v.default

/-- The module-level `_backend = contextvars.ContextVar("database_model_backend", default=None)`
in its initial state, before any `set_backend` scope is entered. -/
def backendVar (β : Type) : ContextVar (Option β) := ⟨none, []⟩

/-- `get_backend()`: returns `_backend.get()` unconditionally. -/
def get_backend (v : ContextVar (Option β)) : Option β := v.get

/-- Claim C8, counterexample: reading the current backend with nothing set
returns `None` — the ContextVar's `default=None` — rather than raising the
distinct error the claim requires. -/
theorem get_backend_unset_returns_none : get_backend (backendVar Nat) = none := rfl

/-- Claim C8 (amended): reading the ambient current backend when no backend
has been set for the enclosing scope silently returns the context
variable's default `None`; no error is raised. -/
theorem get_backend_unset_default (β : Type) :
    get_backend (backendVar β) = none := rfl

/-
The task-scoped transaction context exit (`transaction.__aexit__` in
`pynocular/aiopg_transaction.py`), modelled as the sequence of observable
effects it performs plus whether an exception propagates out of it.
-/

/-- Observable effects of `transaction.__aexit__`. -/
inductive ExitEv where
  | acquiredLock
  | didRollback
  | didCommit
  | clearedTask
  | closedConn
deriving DecidableEq

/-- Python `try: body finally: fin` over effect traces: the finally-block
effects always run after the body's, and an exception raised by either
propagates (the cleanup effects here never raise). -/
def tryFinally (body : List ExitEv × Bool) (fin : List ExitEv × Bool) :
    List ExitEv × Bool :=
  (body.1 ++ fin.1, body.2 || fin.2)

/-- `transaction.__aexit__(exc_type, ...)`: when this context is the top
level one, re-acquire the connection lock, then roll back if an exception is
propagating (else commit) — the physical commit/rollback may itself raise
(`opRaises`) — and in a `finally` block clear the task-local connection
association and close the connection.  A nested (non-top) exit does
nothing. -/
def aexit (top : Bool) (excPending : Bool) (opRaises : Bool) : List ExitEv × Bool :=
  if top then
    let body : List ExitEv × Bool :=
      if excPending then ([.didRollback], opRaises) else ([.didCommit], opRaises)
    let rest := tryFinally body ([.clearedTask, .closedConn], false)
    (.acquiredLock :: rest.1, rest.2)
  else ([], false)

/-- Claim C2: when the outermost transaction context exits it rolls back
exactly when an exception is propagating and commits otherwise, and in both
cases — even when the commit or rollback itself raises — it clears the
task-local connection association and then closes the connection, so
connection release is never skipped (and the operation's failure still
propagates afterwards). -/
theorem aexit_always_releases (excPending opRaises : Bool) :
    ((aexit true excPending opRaises).1.contains .clearedTask = true) ∧
    ((aexit true excPending opRaises).1.contains .closedConn = true) ∧
    ((aexit true excPending opRaises).1.indexOf .clearedTask <
      (aexit true excPending opRaises).1.indexOf .closedConn) ∧
    (excPending = true →
      (aexit true excPending opRaises).1.contains .didRollback = true ∧
      (aexit true excPending opRaises).1.contains .didCommit = false) ∧
    (excPending = false →
      (aexit true excPending opRaises).1.contains .didCommit = true ∧
      (aexit true excPending opRaises).1.contains .didRollback = false) ∧
    ((aexit true excPending opRaises).2 = opRaises) := by
  cases excPending <;> cases opRaises <;> decide

/-- Witness for C2: the worst case — an exception propagating and the
rollback itself raising — still clears the task association and then closes
the connection. -/
theorem aexit_always_releases_witness :
    ((aexit true true true).1.contains .clearedTask = true) ∧
    ((aexit true true true).1.contains .closedConn = true) ∧
    ((aexit true true true).1.indexOf .clearedTask <
      (aexit true true true).1.indexOf .closedConn) ∧
    (true = true →
      (aexit true true true).1.contains .didRollback = true ∧
      (aexit true true true).1.contains .didCommit = false) ∧
    (true = false →
      (aexit true true true).1.contains .didCommit = true ∧
      (aexit true true true).1.contains .didRollback = false) ∧
    ((aexit true true true).2 = true) :=
  aexit_always_releases true true

/-
`LockedConnection` (`pynocular/aiopg_transaction.py`): `execute` acquires
the connection's `asyncio.Lock`, forwards to the wrapped connection, and
releases.  Cooperative concurrency is modelled as an interleaving of `n`
logical tasks, each wanting to run one operation; a scheduler picks which
task advances next.  Each operation's execution on the underlying
connection is bracketed by `start`/`finish` events, and its outcome (result
or error, `ρ`) comes from the fixed function `underlying`.
-/

/-- The lifecycle of one logical caller issuing one `execute` call. -/
inductive Phase where
  | waiting
  | running
  | finished
deriving DecidableEq

/-- Observable events on the underlying wrapped connection: operation `i`
starts executing / finishes executing. -/
inductive LEvent (n : Nat) where
  | start (i : Fin n)
  | finish (i : Fin n)
deriving DecidableEq

/-- The global state: lock owner, each task's phase, each finished task's
returned value, and the event trace seen by the underlying connection. -/
structure LCState (n : Nat) (ρ : Type) where
  lock : Option (Fin n)
  phase : Fin n → Phase
  results : Fin n → Option ρ
  trace : List (LEvent n)

/-- All tasks waiting, lock free, no events yet. -/
def initLC (n : Nat) (ρ : Type) : LCState n ρ :=
  ⟨none, fun _ => .waiting, fun _ => none, []⟩

/-- Scheduling task `i` for one step: a waiting task acquires the free lock
and its operation starts on the underlying connection (if the lock is held
it stays suspended on `async with self.lock`); a running task's operation
completes with its outcome and the lock is released; a finished task does
nothing. -/
def lcStep (underlying : Fin n → ρ) (s : LCState n ρ) (i : Fin n) : LCState n ρ :=
  match s.phase i with
  | .waiting =>
    match s.lock with
    | none =>
      { lock := some i, phase := Function.update s.phase i Phase.running,
        results := s.results, trace := s.trace ++ [.start i] }
    | some _ => s
  | .running =>
    { lock := none, phase := Function.update s.phase i Phase.finished,
      results := Function.update s.results i (some (underlying i)),
      trace := s.trace ++ [.finish i] }
  | .finished => s

/-- Run a whole schedule of task choices. -/
def lcRun (underlying : Fin n → ρ) (sched : List (Fin n)) (s : LCState n ρ) :
    LCState n ρ :=
  sched.foldl (lcStep underlying) s

/-- One step of trace well-formedness: starting an operation requires no
operation to be open; finishing requires exactly that operation to be the
open one. -/
def openAfter (cur : Option (Fin n)) : LEvent n → Option (Option (Fin n))
  | .start i =>
    match cur with
    | none => some (some i)
    | some _ => none
  | .finish i => if cur = some i then some none else none

/-- A trace is strictly serialized if it parses as a sequence of
`start i, finish i` brackets that never overlap; returns the operation
still open at the end, or `none` (for the result) when two operations were
ever in flight at once. -/
def traceOkAux (cur : Option (Fin n)) : List (LEvent n) → Option (Option (Fin n))
  | [] => some cur
  | e :: rest =>
    match openAfter cur e with
    | none => none
    | some cur2 => traceOkAux cur2 rest

theorem traceOkAux_append (cur : Option (Fin n)) (l : List (LEvent n)) (e : LEvent n) :
    traceOkAux cur (l ++ [e]) =
      match traceOkAux cur l with
      | none => none
      | some c => openAfter c e := by
  induction l generalizing cur with
  | nil =>
    cases h : openAfter cur e <;> simp [traceOkAux, h]
  | cons a l ih =>
    simp only [List.cons_append, traceOkAux]
    cases openAfter cur a with
    | none => rfl
    | some c2 => exact ih c2

/-- The inductive invariant of the LockedConnection model: the trace is
serialized with the currently open operation held by the lock owner, the
lock owner is exactly the running task, and every finished task got its
operation's outcome from the underlying connection unchanged. -/
def LCInv (underlying : Fin n → ρ) (s : LCState n ρ) : Prop :=
  traceOkAux none s.trace = some s.lock ∧
  (∀ i, s.phase i = Phase.running ↔ s.lock = some i) ∧
  (∀ i, s.phase i = Phase.finished → s.results i = some (underlying i))

theorem lcStep_inv (underlying : Fin n → ρ) (s : LCState n ρ) (i : Fin n)
    (h : LCInv underlying s) : LCInv underlying (lcStep underlying s i) := by
  obtain ⟨htr, hrun, hfin⟩ := h
  cases hp : s.phase i with
  | waiting =>
    cases hl : s.lock with
    | none =>
      simp only [lcStep, hp, hl]
      refine ⟨?_, ?_, ?_⟩
      · dsimp only
        rw [traceOkAux_append, htr, hl]
        rfl
      · intro j
        dsimp only
        by_cases hij : j = i
        · subst hij
          simp [Function.update_same]
        · rw [Function.update_noteq hij]
          constructor
          · intro hr
            have := (hrun j).mp hr
            rw [hl] at this
            exact absurd this (by simp)
          · intro hsome
            exact absurd (Option.some.inj hsome).symm hij
      · intro j hj
        dsimp only at hj ⊢
        by_cases hij : j = i
        · subst hij
          rw [Function.update_same] at hj
          exact absurd hj (by simp)
        · rw [Function.update_noteq hij] at hj
          exact hfin j hj
    | some k =>
      simp only [lcStep, hp, hl]
      exact ⟨by rw [htr, hl], fun j => (hrun j).trans (by rw [hl]), hfin⟩
  | running =>
    have hlock : s.lock = some i := (hrun i).mp hp
    simp only [lcStep, hp]
    refine ⟨?_, ?_, ?_⟩
    · dsimp only
      rw [traceOkAux_append, htr, hlock]
      simp [openAfter]
    · intro j
      dsimp only
      by_cases hij : j = i
      · subst hij
        simp [Function.update_same]
      · rw [Function.update_noteq hij]
        constructor
        · intro hr
          have := (hrun j).mp hr
          rw [hlock] at this
          exact absurd (Option.some.inj this).symm hij
        · intro hsome
          exact absurd hsome (by simp)
    · intro j hj
      dsimp only at hj ⊢
      by_cases hij : j = i
      · subst hij
        rw [Function.update_same]
      · rw [Function.update_noteq hij] at hj
        rw [Function.update_noteq hij]
        exact hfin j hj
  | finished =>
    simp only [lcStep, hp]
    exact ⟨htr, hrun, hfin⟩

theorem lcRun_inv (underlying : Fin n → ρ) (sched : List (Fin n)) :
    ∀ s : LCState n ρ, LCInv underlying s → LCInv underlying (lcRun underlying sched s) := by
  induction sched with
  | nil => intro s h; exact h
  | cons i rest ih =>
    intro s h
    exact ih (lcStep underlying s i) (lcStep_inv underlying s i h)

/-- Claim C3: under every cooperative schedule of concurrently issued
operations against one LockedConnection, the event trace on the underlying
connection is strictly serialized — it parses as non-overlapping
`start`/`finish` brackets whose only possibly-open bracket belongs to the
current lock holder, so the underlying connection never has two operations
in flight at once — and every completed operation's result or error is the
underlying connection's outcome, propagated unchanged. -/
theorem locked_connection_serializes (n : Nat) (ρ : Type)
    (underlying : Fin n → ρ) (sched : List (Fin n)) :
    traceOkAux none (lcRun underlying sched (initLC n ρ)).trace =
      some (lcRun underlying sched (initLC n ρ)).lock ∧
    ∀ i, (lcRun underlying sched (initLC n ρ)).phase i = Phase.finished →
      (lcRun underlying sched (initLC n ρ)).results i = some (underlying i) := by
  have hinit : LCInv underlying (initLC n ρ) := by
    refine ⟨rfl, ?_, ?_⟩
    · intro i
      constructor
      · intro hr; exact absurd hr (by simp [initLC])
      · intro hs; exact absurd hs (by simp [initLC])
    · intro i hi
      exact absurd hi (by simp [initLC])
  have h := lcRun_inv underlying sched (initLC n ρ) hinit
  exact ⟨h.1, h.2.2⟩

/-- Outcome of an operation on the wrapped connection: a result or an
error. -/
inductive OpOutcome where
  | succeeded (v : Nat)
  | failed (e : String)
deriving DecidableEq

/-- Two concrete operations: one succeeds, one fails. -/
def underlying2 : Fin 2 → OpOutcome :=
  fun i => if i = 0 then .succeeded 10 else .failed "boom"

/-- A concrete interleaved schedule: task 1 tries to acquire while task 0
holds the lock, then proceeds after the release. -/
def sched2 : List (Fin 2) := [0, 1, 0, 1, 1]

/-- Witness for C3: in the concrete interleaving, task 1 finished and its
error outcome was propagated unchanged. -/
theorem locked_connection_serializes_witness :
    (lcRun underlying2 sched2 (initLC 2 OpOutcome)).results 1 =
      some (underlying2 1) :=
  (locked_connection_serializes 2 OpOutcome underlying2 sched2).2 1 (by decide)

end Pynocular
